import Mathlib

/-!
Verification development for a Python Enigma-machine simulator
(`tools.py`, `errorHandling.py`, `enigma.py`).

The Python source is shallowly embedded below:

* machine integers become `Int`/`Nat` (Python ints are unbounded, so no
  overflow modelling is needed);
* Python strings of single letters become `Char`; the `inputValidator`
  decorator's normalisation (`lettersClean.lower()`) becomes an explicit
  `Char.toLower` at the start of each decorated operation;
* Python lists become `List`; Python's negative-index list access
  (`l[-1]` is the last element) is modelled by `pyGetD`;
* raised exceptions become `Except` results;
* the sentinel `False` stored in the notch list of notch-less rotors
  (`self.notch = [False]`) is modelled by `Option Char`: `none` stands
  for the Python `False` entry and `some c` for a notch letter, so the
  Python membership test `letter in notch` becomes
  `notch.contains (some letter)`.

Statefulness (mutation of `currentPos` during `fullEncode`) is modelled
by explicit state passing: `EnigmaMachine.fullEncode` returns the encoded
letter together with the machine holding the stepped rotors.
-/

/-- Alphabet `genericMapping` shared by every rotor (`Rotor.__init__`). -/
def genericMapping : List Char :=
  ['A', 'B', 'C', 'D', 'E', 'F', 'G', 'H', 'I', 'J', 'K', 'L', 'M',
   'N', 'O', 'P', 'Q', 'R', 'S', 'T', 'U', 'V', 'W', 'X', 'Y', 'Z']

/-- Lowercase alphabet, the letter universe the `inputValidator`
decorator normalises single-letter inputs into. -/
def lowerAlphabet : List Char :=
  ['a', 'b', 'c', 'd', 'e', 'f', 'g', 'h', 'i', 'j', 'k', 'l', 'm',
   'n', 'o', 'p', 'q', 'r', 's', 't', 'u', 'v', 'w', 'x', 'y', 'z']

/-- Translation of `tools.positionLooper`.  Python's `%` on ints with a
positive right operand always returns a non-negative result, which is
exactly `Int.emod` (the `%` of `Int` in Lean). -/
def positionLooper (inputNumber : Int) (base : Int) : Int :=
  if 0 ≤ inputNumber ∧ inputNumber ≤ base then inputNumber
  else if inputNumber < 0 then inputNumber % base + 1
  else inputNumber % base - 1

/-- Python list indexing `l[i]` including the negative-index convention
(`l[-k]` is `l[len l - k]`).  Out-of-range access, which raises
`IndexError` in Python, returns the default; no claim exercises it. -/
def pyGetD {α : Type} (l : List α) (i : Int) (d : α) : α :=
  if 0 ≤ i then l.getD i.toNat d
  else l.getD (l.length - (-i).toNat) d

/-- Translation of the `PlugLead` object: `lettersList` is the pair of
letters, stored lowercased by `PlugLead.__init__`. -/
structure PlugLead where
  lettersList : List Char
  deriving Repr, DecidableEq

/-- Default `PlugLead` used for Python's `list[i]` where the index is in
range in every exercised execution. -/
def defaultPlugLead : PlugLead := ⟨[]⟩

/-- Translation of `PlugLead.encode`: the `inputValidator` decorator
lowercases the letter; an unowned letter is returned uppercased, an
owned letter is swapped for the last element of the pair filtered by
inequality (`list(filter(lambda x: x!=letterInput, lettersList))[-1]`). -/
def PlugLead.encode (self : PlugLead) (letterInput : Char) : Char :=
  let l := letterInput.toLower
  if !(self.lettersList.contains l) then l.toUpper
  else ((self.lettersList.filter (fun x => x ≠ l)).getLastD '?').toUpper

/-- Translation of the `Plugboard` object: the flat list of reserved
letters, the list of leads, and the capacity `numPlugLeads` (an `Int`:
Python accepts any int here, including negative ones). -/
structure Plugboard where
  plugLeadsLetters : List Char
  plugLeads : List PlugLead
  numPlugLeads : Int
  deriving Repr, DecidableEq

/-- Translation of `Plugboard.__init__`: capacities above 13 raise
`ValueError`, everything else is accepted. -/
def Plugboard.init (numPlugLeads : Int) : Except String Plugboard :=
  if numPlugLeads > 13 then
    Except.error "Number of PlugLeads cannot be greater than 13"
  else
    Except.ok ⟨[], [], numPlugLeads⟩

/-- Errors raised by `Plugboard.add` (`PlugboardError` in
`errorHandling.py`), distinguished by the raising branch. -/
inductive PlugboardErr where
  | maxReached : PlugboardErr
  | alreadyAssigned : Char → PlugboardErr
  deriving Repr, DecidableEq

/-- Translation of `Plugboard.add`: a capacity error when the number of
stored leads equals `numPlugLeads` (an equality test in the source, not
`≥`), otherwise a conflict error at the first letter of the lead already
reserved, otherwise both letters are appended and the lead stored. -/
def Plugboard.add (self : Plugboard) (pl : PlugLead) : Except PlugboardErr Plugboard :=
  if (self.plugLeads.length : Int) = self.numPlugLeads then
    Except.error PlugboardErr.maxReached
  else
    match pl.lettersList.find? (fun x => self.plugLeadsLetters.contains x) with
    | some x => Except.error (PlugboardErr.alreadyAssigned x)
    | none =>
        Except.ok ⟨self.plugLeadsLetters ++ pl.lettersList,
                   self.plugLeads ++ [pl], self.numPlugLeads⟩

/-- Translation of `Plugboard.encode`: the validator lowercases the
letter; a reserved letter is dispatched to the owning lead located at
index `plugLeadsLetters.index(letter) // 2`, anything else is returned
uppercased. -/
def Plugboard.encode (self : Plugboard) (letterInput : Char) : Char :=
  let l := letterInput.toLower
  if self.plugLeadsLetters.contains l then
    (self.plugLeads.getD (self.plugLeadsLetters.indexOf l / 2) defaultPlugLead).encode l
  else l.toUpper

/-- Translation of the mutable per-rotor state set up by
`Rotor.__init__` and the subclass constructors. -/
structure Rotor where
  name : String
  rotorType : String
  mapping : List Char
  notch : List (Option Char)
  ringSetting : Int
  currentPos : Int
  deriving Repr, DecidableEq

/-- Default `Rotor` used for list accesses that are in range in every
exercised execution. -/
def defaultRotor : Rotor := ⟨"", "", [], [], 0, 0⟩

/-- Translation of `Rotor.encode`.  The reflector branch looks the
uppercased letter up in `mapping` and returns it lowercased; the rotor
branch applies `offset = currentPos - ringSetting` through
`positionLooper`, substitutes through `mapping` (forward, `"right"`) or
through `mapping.index` (backward, any other direction string), undoes
the offset and uppercases the result.  The intermediate
`genericMapping[inputIndexOffset]` lookup uses Python indexing, which
accepts the negative index `positionLooper` can produce. -/
def Rotor.encode (self : Rotor) (letterInput : Char) (direction : String) : Char :=
  let letterInput := letterInput.toLower
  if self.rotorType == "reflector" then
    (pyGetD self.mapping ((genericMapping.indexOf letterInput.toUpper : Nat) : Int) '?').toLower
  else
    let offset := self.currentPos - self.ringSetting
    let inputIndex : Int := (genericMapping.indexOf letterInput.toUpper : Nat)
    let inputIndexOffset := positionLooper (inputIndex + offset) 25
    let letterInputOffset := pyGetD genericMapping inputIndexOffset '?'
    let letter :=
      if direction == "right" then
        pyGetD self.mapping ((genericMapping.indexOf letterInputOffset : Nat) : Int) '?'
      else
        pyGetD genericMapping ((self.mapping.indexOf letterInputOffset : Nat) : Int) '?'
    let outputIndexOffset := positionLooper (((genericMapping.indexOf letter : Nat) : Int) - offset) 25
    (pyGetD genericMapping outputIndexOffset '?').toUpper

/-- Translation of the `notchlessToTheRight` list comprehension in
`EnigmaMachine.fullEncode`:
`[False if x==1 else rotorsList[-x+1].rotorType=='notchless' for x in range(1,n+1)]`.
Note the source compares against the string `'notchless'` while the
constructors only ever store `'notchrotor'`, `'notchlessrotor'` or
`'reflector'`. -/
def notchlessToTheRight (rotors : List Rotor) : List Bool :=
  (List.range' 1 rotors.length).map fun x =>
    if x = 1 then false
    else (pyGetD rotors (-(x : Int) + 1) defaultRotor).rotorType == "notchless"

/-- One pawl engagement as performed by the turning loop: replace the
position at index `i` by `positionLooper(position + 1, 25)` and mark the
rotor at `i` as having turned
(`updatedPos = positionLooper(rotor.currentPos+1,25)` plus
`hasTurned = True` in the source). -/
def ownStep (st : List Int × List Bool) (i : Nat) : List Int × List Bool :=
  (st.1.set i (positionLooper (st.1.getD i 0 + 1) 25), st.2.set i true)

/-- One iteration of the turning loop `for r in range(1,numRotors+1)` of
`EnigmaMachine.fullEncode`, acting on the pair (positions, hasTurned).
Python's negative indices `-r` and `-r-1` are written `n - r` and
`n - r - 1`; for the machines the claims quantify over (`3 ≤ n`, and the
left-neighbour index only reached for `r ≤ 2`) these are the same list
cells Python addresses.  The notch comparison reads the snapshot
`initPos`, while the two pawl engagements read the current positions. -/
def stepBody (rotors : List Rotor) (initPos : List Int) (ntr : List Bool)
    (st : List Int × List Bool) (r : Nat) : List Int × List Bool :=
  let n := rotors.length
  let currentPos := initPos.getD (n - r) 0
  let letterCurrentPos := pyGetD genericMapping currentPos '?'
  let notch := (rotors.getD (n - r) defaultRotor).notch
  if notch.contains (some letterCurrentPos) && (r == 1 || r == 2)
      && !(ntr.getD (n - r) false) then
    let st1 := if !(st.2.getD (n - r) false) then ownStep st (n - r) else st
    if r ≤ 2 then ownStep st1 (n - r - 1) else st1
  else st

/-- State of (positions, hasTurned) after the turning loop of
`EnigmaMachine.fullEncode`, starting from the snapshot of initial
positions and the all-false hasTurned list. -/
def stepLoop (rotors : List Rotor) : List Int × List Bool :=
  (List.range' 1 rotors.length).foldl
    (stepBody rotors (rotors.map (fun x => x.currentPos)) (notchlessToTheRight rotors))
    (rotors.map (fun x => x.currentPos), List.replicate rotors.length false)

/-- Positions after the whole stepping phase of
`EnigmaMachine.fullEncode`: the turning loop followed by the
unconditional final step of the rightmost rotor when it has not turned
yet (the Python final step updates only the position). -/
def stepPositions (rotors : List Rotor) : List Int :=
  if !((stepLoop rotors).2.getD (rotors.length - 1) false) then
    (ownStep (stepLoop rotors) (rotors.length - 1)).1
  else (stepLoop rotors).1

/-- Rotor list after the stepping phase: each rotor keeps its wiring,
notches, ring setting and type, with `currentPos` replaced by the
stepped position. -/
def stepRotors (rotors : List Rotor) : List Rotor :=
  (rotors.zip (stepPositions rotors)).map fun p => { p.1 with currentPos := p.2 }

/-- Translation of the `EnigmaMachine` object (rotor stack, plugboard,
reflector). -/
structure EnigmaMachine where
  rotorsList : List Rotor
  plugBoard : Plugboard
  reflector : Rotor
  deriving Repr

/-- Translation of `EnigmaMachine.fullEncode` for one letter: plugboard,
stepping, rotors right-to-left forward, reflector, rotors left-to-right
backward, plugboard, final uppercase.  Returns the letter and the
machine with the stepped rotor stack (the only mutation the Python
method performs). -/
def EnigmaMachine.fullEncode (self : EnigmaMachine) (inputLetter : Char) :
    Char × EnigmaMachine :=
  let letter := inputLetter.toLower
  let encodedInput := self.plugBoard.encode letter
  let stepped := stepRotors self.rotorsList
  let afterRight := stepped.reverse.foldl (fun s r => r.encode s "right") encodedInput
  let afterReflect := self.reflector.encode afterRight "left"
  let afterLeft := stepped.foldl (fun s r => r.encode s "left") afterReflect
  let out := self.plugBoard.encode afterLeft
  (out.toUpper, { self with rotorsList := stepped })

/-- Translation of the `RotorI` constructor: ring settings are stored
decremented (`set_ring_setting`), the initial position is stored as the
alphabet index of the uppercased letter (`set_initial_pos`). -/
def RotorI (ringSetting : Int) (initialPos : Char) : Rotor :=
  { name := "I", rotorType := "notchrotor",
    mapping := ['E', 'K', 'M', 'F', 'L', 'G', 'D', 'Q', 'V', 'Z', 'N', 'T', 'O',
                'W', 'Y', 'H', 'X', 'U', 'S', 'P', 'A', 'I', 'B', 'R', 'C', 'J'],
    notch := [some 'Q'],
    ringSetting := ringSetting - 1,
    currentPos := ((genericMapping.indexOf initialPos.toUpper : Nat) : Int) }

/-- Translation of the `RotorII` constructor. -/
def RotorII (ringSetting : Int) (initialPos : Char) : Rotor :=
  { name := "II", rotorType := "notchrotor",
    mapping := ['A', 'J', 'D', 'K', 'S', 'I', 'R', 'U', 'X', 'B', 'L', 'H', 'W',
                'T', 'M', 'C', 'Q', 'G', 'Z', 'N', 'P', 'Y', 'F', 'V', 'O', 'E'],
    notch := [some 'E'],
    ringSetting := ringSetting - 1,
    currentPos := ((genericMapping.indexOf initialPos.toUpper : Nat) : Int) }

/-- Translation of the `RotorIII` constructor. -/
def RotorIII (ringSetting : Int) (initialPos : Char) : Rotor :=
  { name := "III", rotorType := "notchrotor",
    mapping := ['B', 'D', 'F', 'H', 'J', 'L', 'C', 'P', 'R', 'T', 'X', 'V', 'Z',
                'N', 'Y', 'E', 'I', 'W', 'G', 'A', 'K', 'M', 'U', 'S', 'Q', 'O'],
    notch := [some 'V'],
    ringSetting := ringSetting - 1,
    currentPos := ((genericMapping.indexOf initialPos.toUpper : Nat) : Int) }

/-- Translation of the `RotorBeta` constructor: a notch-less rotor; its
Python notch list is `[False]`, modelled as `[none]`. -/
def RotorBeta (ringSetting : Int) (initialPos : Char) : Rotor :=
  { name := "beta", rotorType := "notchlessrotor",
    mapping := ['L', 'E', 'Y', 'J', 'V', 'C', 'N', 'I', 'X', 'W', 'P', 'B', 'Q',
                'M', 'D', 'R', 'T', 'A', 'K', 'Z', 'G', 'F', 'U', 'H', 'O', 'S'],
    notch := [none],
    ringSetting := ringSetting - 1,
    currentPos := ((genericMapping.indexOf initialPos.toUpper : Nat) : Int) }

/-- Repeated-letter test used by `RotorCustom` and `ReflectorCustom`:
builds the per-letter counts and checks whether the largest one exceeds
one (`sorted(elementsCount.values())[-1] > 1`). -/
def hasRepeatedLetter (mapping : List Char) : Bool :=
  mapping.any (fun c => 1 < mapping.count c)

/-- Translation of the `ReflectorCustom` constructor: the only check it
performs is the repeated-letter test; a duplicate-free wiring of any
content is accepted. -/
def ReflectorCustom (mapping : List Char) : Except String Rotor :=
  if hasRepeatedLetter mapping then
    Except.error "Mapping cannot repeat letters."
  else
    Except.ok { name := "custom", rotorType := "reflector",
                mapping := mapping, notch := [none],
                ringSetting := 0, currentPos := 0 }

/-- Errors raised while assembling the rotor stack, distinguished by the
raising branch of `EnigmaMachine.addRotor` / `EnigmaMachine.setup`. -/
inductive SetupErr where
  | invalidPosition (order : Int) (name : String) : SetupErr
  | outOfOrder (name : String) (order : Int) : SetupErr
  | minRotors : SetupErr
  deriving Repr, DecidableEq

/-- Translation of `EnigmaMachine.addRotor`: an order below 1 is
invalid, an order leaving a gap (`order-1 > len(rotorsList)`) is out of
order, otherwise the rotor is inserted at index `order-1` (Python
`list.insert`, which shifts the following rotors right).  The Python
`type(order) != int` test is subsumed by the `Int` type of `order`. -/
def addRotor (rotorsList : List Rotor) (rotorObject : Rotor) (order : Int) :
    Except SetupErr (List Rotor) :=
  if order < 1 then
    Except.error (SetupErr.invalidPosition order rotorObject.name)
  else if order - 1 > (rotorsList.length : Int) then
    Except.error (SetupErr.outOfOrder rotorObject.name order)
  else
    Except.ok (rotorsList.insertIdx (order - 1).toNat rotorObject)

/-- Translation of the rotor-stack part of `EnigmaMachine.setup`: the
rotor-count guard (`if len(rotors) < 3: raise`) followed by the
insertion loop.  The catalogue/argument parsing that turns name strings
into rotor objects is configuration glue outside the claims' scope; the
specs are taken here as already-built rotors paired with their requested
order. -/
def setupRotors (rotors : List (Rotor × Int)) : Except SetupErr (List Rotor) :=
  if rotors.length < 3 then Except.error SetupErr.minRotors
  else rotors.foldlM (fun acc p => addRotor acc p.1 p.2) []

/-- Sequence of `Plugboard.add` calls, used to express that arbitrarily
many leads can be added. -/
def addAllLeads (pb : Plugboard) (leads : List PlugLead) : Except PlugboardErr Plugboard :=
  leads.foldlM Plugboard.add pb

/-- Flat list of the letters reserved by a list of leads, in insertion
order; this is the shape `Plugboard.add` maintains for
`plugLeadsLetters` (two letters appended per stored lead). -/
def leadLetters : List PlugLead → List Char
  | [] => []
  | pl :: rest => pl.lettersList ++ leadLetters rest

/-- Shape of a lead accepted by the `PlugLead` constructor's input
validation: exactly two distinct letters, lowercased. -/
def PlugLead.Valid (pl : PlugLead) : Prop :=
  pl.lettersList.length = 2 ∧ pl.lettersList.Nodup ∧
    ∀ x ∈ pl.lettersList, x ∈ lowerAlphabet

/-- Invariant of a plugboard reachable through `Plugboard.add`: the
letter list is the flattening of the stored leads, every lead is a valid
two-letter pair, and no letter is reserved twice. -/
def Plugboard.Valid (pb : Plugboard) : Prop :=
  pb.plugLeadsLetters = leadLetters pb.plugLeads ∧
  (∀ pl ∈ pb.plugLeads, pl.Valid) ∧
  (leadLetters pb.plugLeads).Nodup

/-- Letter `l` is wired to letter `p` by one of the board's leads. -/
def Plugboard.Pairs (pb : Plugboard) (l p : Char) : Prop :=
  ∃ pl ∈ pb.plugLeads, pl.lettersList = [l, p] ∨ pl.lettersList = [p, l]

/-! ### Spec-side definitions used by refinement-style claims -/

/-- Modelled from the spec: the wrap rule of §4.2, exactly as worded
("if `0 ≤ n ≤ 25` return `n`; if `n < 0` return `(n mod 26) + 1`; if
`n > 25` return `(n mod 26) − 1`"). -/
def specWrap (n : Int) : Int :=
  if 0 ≤ n ∧ n ≤ 25 then n
  else if n < 0 then n % 26 + 1
  else n % 26 - 1

/-- Amended wrap rule: as the spec words it but with the modulus the
source actually uses, namely the `base` argument 25. -/
def specWrapAmended (n : Int) : Int :=
  if 0 ≤ n ∧ n ≤ 25 then n
  else if n < 0 then n % 25 + 1
  else n % 25 - 1

/-- Modelled from the spec: a fixed-point-free involution on the
26-letter alphabet (no symbol maps to itself, the mapping is
self-inverse), the condition §4.3 requires of reflector wirings. -/
def isFixedPointFreeInvolution (m : List Char) : Prop :=
  m.length = 26 ∧ ∀ i : Fin 26,
    pyGetD m ((i : Nat) : Int) '?' ≠ genericMapping.getD (i : Nat) '?' ∧
    pyGetD m ((genericMapping.indexOf (pyGetD m ((i : Nat) : Int) '?') : Nat) : Int) '?'
      = genericMapping.getD (i : Nat) '?'

/-! ### C3: the position-wrap helper -/

/-- C3 counterexample: `positionLooper` does not implement the spec's
rule; at the concrete input 26 the source computes `26 % 25 - 1 = 0`
while the spec's formula gives `26 mod 26 - 1 = -1`. -/
theorem c3_wrap_rule_counterexample :
    ¬ (∀ n : Int, positionLooper n 25 = specWrap n) := by
  intro h
  have h26 := h 26
  revert h26
  decide

/-- C3 (amended): for every integer n, `wrap(n, 25)` returns n when
0 ≤ n ≤ 25, returns (n mod 25) + 1 when n < 0, and returns
(n mod 25) − 1 when n > 25 — the modulus is the base argument 25, not
26 as the spec's formula states. -/
theorem c3_wrap_rule_amended : ∀ n : Int, positionLooper n 25 = specWrapAmended n :=
  fun _ => rfl

/-! ### C5: the notch-less neighbour gate is inoperative -/

/-- C5: evaluation of the stepping phase at the claim's failing input.
With rightmost rotor Beta (notch-less) and the middle rotor I sitting on
its own notch letter Q (position 16), the claim requires the middle
rotor to stay at 16; the code instead advances it to 17 (and the
leftmost rotor to 1), because `notchlessToTheRight` compares
`rotorType` against the string "notchless" while every constructor
stores "notchrotor", "notchlessrotor" or "reflector", so the gate is
never engaged — contradicting the source's own comment that a rotor
steps only if "the rotor to the right is not a notchless rotor". -/
theorem c5_notchless_gate_inoperative :
    (stepRotors [RotorIII 1 'A', RotorI 1 'Q', RotorBeta 1 'A']).map
        (fun r => r.currentPos) = [1, 17, 1] ∧
    notchlessToTheRight [RotorIII 1 'A', RotorI 1 'Q', RotorBeta 1 'A']
      = [false, false, false] := by
  constructor <;> rfl

/-! ### C8: reflector construction checks -/

/-- C8 counterexample: the identity wiring is not a fixed-point-free
involution (every letter maps to itself), yet `ReflectorCustom` accepts
it — construction only rejects repeated letters. -/
theorem c8_reflector_involution_counterexample :
    (ReflectorCustom genericMapping).isOk = true ∧
    ¬ isFixedPointFreeInvolution genericMapping := by
  constructor
  · rfl
  · unfold isFixedPointFreeInvolution
    decide

/-- Helper: the repeated-letter test of the custom constructors is the
negation of `Nodup`. -/
theorem hasRepeatedLetter_eq_false_iff (m : List Char) :
    hasRepeatedLetter m = false ↔ m.Nodup := by
  rw [List.nodup_iff_count_le_one]
  unfold hasRepeatedLetter
  rw [← Bool.not_eq_true, List.any_eq_true]
  simp only [decide_eq_true_eq]
  constructor
  · intro h a
    by_cases ha : a ∈ m
    · by_contra hgt
      exact h ⟨a, ha, by omega⟩
    · rw [List.count_eq_zero_of_not_mem ha]
      omega
  · rintro h ⟨a, _, hgt⟩
    exact absurd (h a) (by omega)

/-- C8 (amended): constructing a custom reflector fails exactly when the
wiring repeats a letter; being a fixed-point-free involution is not
checked, so duplicate-free non-involutive wirings are accepted rather
than rejected. -/
theorem c8_reflector_construction_amended (m : List Char) :
    (ReflectorCustom m).isOk = true ↔ m.Nodup := by
  unfold ReflectorCustom
  rcases hrep : hasRepeatedLetter m with _ | _
  · simp only [Bool.false_eq_true, if_false, Except.isOk, Except.toBool]
    simp only [true_iff]
    exact (hasRepeatedLetter_eq_false_iff m).mp hrep
  · simp only [if_true, Except.isOk, Except.toBool]
    constructor
    · intro h
      exact absurd h (by simp)
    · intro h
      have := (hasRepeatedLetter_eq_false_iff m).mpr h
      rw [hrep] at this
      exact absurd this (by simp)

/-! ### C9: rotor-count and rotor-order configuration rejection -/

/-- C9 counterexample: requesting the order 1 twice in one setup (third
rotor at order 3) is accepted by the code — `addRotor` only rejects
non-positive orders and gaps, a duplicate order just shifts the earlier
rotor to the right — so the claim that it "fails with an order error" is
false. -/
theorem c9_duplicate_order_counterexample :
    setupRotors [(RotorI 1 'A', 1), (RotorII 1 'A', 1), (RotorIII 1 'A', 3)]
      = Except.ok [RotorII 1 'A', RotorI 1 'A', RotorIII 1 'A'] := by
  rfl

/-- C9 (amended): requesting a machine with only 2 rotors fails with the
rotor-count error, and requesting rotor order 0 (indeed any order below
1) fails with the invalid-position error; but requesting the same rotor
order 1 twice in one setup is accepted (the second rotor is inserted in
front of the first), not rejected. -/
theorem c9_configuration_rejection_amended :
    (∀ rotors : List (Rotor × Int), rotors.length < 3 →
      setupRotors rotors = Except.error SetupErr.minRotors) ∧
    (∀ (rotorsList : List Rotor) (r : Rotor) (order : Int), order < 1 →
      addRotor rotorsList r order
        = Except.error (SetupErr.invalidPosition order r.name)) ∧
    (setupRotors [(RotorI 1 'A', 1), (RotorII 1 'A', 1), (RotorIII 1 'A', 3)]).isOk
      = true := by
  refine ⟨?_, ?_, rfl⟩
  · intro rotors h
    unfold setupRotors
    rw [if_pos h]
  · intro rotorsList r order h
    unfold addRotor
    rw [if_pos h]

/-- C9 witness: the amended theorem applied at concrete inputs — a
2-rotor request errors with the count error and an order-0 request
errors with the position error. -/
theorem c9_configuration_rejection_witness :
    setupRotors [(RotorI 1 'A', 1), (RotorII 1 'A', 2)]
      = Except.error SetupErr.minRotors ∧
    addRotor [] (RotorI 1 'A') 0
      = Except.error (SetupErr.invalidPosition 0 "I") := by
  refine ⟨c9_configuration_rejection_amended.1 _ (by decide), ?_⟩
  have h := c9_configuration_rejection_amended.2.1 [] (RotorI 1 'A') 0 (by decide)
  exact h

/-! ### C10: plugboard capacity behaviour -/

/-- C10: the constructor rejects exactly capacities above 13 (so 0 and
negative capacities are accepted); with a negative capacity `add` can
never raise the capacity error, and any list of leads whose letters are
fresh and pairwise disjoint is added successfully, no matter how
long. -/
theorem c10_plugboard_capacity :
    (∀ n : Int, (Plugboard.init n).isOk = true ↔ n ≤ 13) ∧
    (∀ (pb : Plugboard) (pl : PlugLead), pb.numPlugLeads < 0 →
      pb.add pl ≠ Except.error PlugboardErr.maxReached) ∧
    (∀ (pb : Plugboard) (leads : List PlugLead), pb.numPlugLeads < 0 →
      (∀ pl ∈ leads, ∀ c ∈ pl.lettersList, c ∉ pb.plugLeadsLetters) →
      List.Pairwise (fun a b => ∀ c ∈ a.lettersList, c ∉ b.lettersList) leads →
      (addAllLeads pb leads).isOk = true) := by
  refine ⟨?_, ?_, ?_⟩
  · intro n
    unfold Plugboard.init
    by_cases h : n > 13
    · rw [if_pos h]
      simp only [Except.isOk, Except.toBool]
      constructor
      · intro hh
        exact absurd hh (by simp)
      · intro hh
        omega
    · rw [if_neg h]
      simp only [Except.isOk, Except.toBool, true_iff]
      omega
  · intro pb pl hneg
    unfold Plugboard.add
    rw [if_neg (by have := pb.plugLeads.length; omega)]
    rcases pl.lettersList.find? (fun x => pb.plugLeadsLetters.contains x) with _ | x
    · simp
    · simp
  · intro pb leads
    induction leads generalizing pb with
    | nil => intro _ _ _; rfl
    | cons pl rest ih =>
      intro hneg hfresh hpw
      have hadd : pb.add pl = Except.ok ⟨pb.plugLeadsLetters ++ pl.lettersList,
          pb.plugLeads ++ [pl], pb.numPlugLeads⟩ := by
        unfold Plugboard.add
        rw [if_neg (by have h0 : (0:Int) ≤ pb.plugLeads.length := by positivity
                       omega)]
        have hfind : pl.lettersList.find? (fun x => pb.plugLeadsLetters.contains x)
            = none := by
          rw [List.find?_eq_none]
          intro x hx
          have := hfresh pl (by simp) x hx
          simpa using this
        rw [hfind]
      unfold addAllLeads at ih ⊢
      rw [List.foldlM_cons, hadd]
      show ((rest.foldlM Plugboard.add _ : Except PlugboardErr Plugboard)).isOk = true
      apply ih
      · exact hneg
      · intro pl' hpl' c hc
        simp only [List.mem_append]
        rintro (hin | hin)
        · exact hfresh pl' (by simp [hpl']) c hc hin
        · rcases hpw with _ | ⟨hhead, _⟩
          exact hhead pl' hpl' c hin hc
      · rcases hpw with _ | ⟨_, htail⟩
        exact htail

/-- C10 witness: a capacity −1 board accepts fourteen disjoint leads —
one more than the 13 the constructor would ever allow as a capacity —
and a single `add` on it cannot fail with the capacity error. -/
theorem c10_plugboard_capacity_witness :
    (Plugboard.init (-1)).isOk = true ∧
    (Plugboard.add ⟨[], [], -1⟩ ⟨['a', 'b']⟩ ≠ Except.error PlugboardErr.maxReached) ∧
    (addAllLeads ⟨[], [], -1⟩
      [⟨['a', 'b']⟩, ⟨['c', 'd']⟩, ⟨['e', 'f']⟩, ⟨['g', 'h']⟩, ⟨['i', 'j']⟩,
       ⟨['k', 'l']⟩, ⟨['m', 'n']⟩, ⟨['o', 'p']⟩, ⟨['q', 'r']⟩, ⟨['s', 't']⟩,
       ⟨['u', 'v']⟩, ⟨['w', 'x']⟩, ⟨['y', 'z']⟩, ⟨['0', '1']⟩]).isOk = true := by
  refine ⟨(c10_plugboard_capacity.1 (-1)).mpr (by decide),
          c10_plugboard_capacity.2.1 _ _ (by decide),
          c10_plugboard_capacity.2.2 _ _ (by decide) (by decide) (by decide)⟩

set_option maxHeartbeats 1000000 in
/-- Behaviour of `Rotor.encode` on an identity-wired rotor at any
reachable offset, for the uppercase alphabet plus the lowercase letters
the reflector can hand back.  The rotor returns its input (uppercased)
except at the two extreme offsets, where the doubled wrap of
`positionLooper` combined with Python's negative indexing sends exactly
one letter astray. -/
theorem identity_rotor_encode (r : Rotor) (hty : r.rotorType ≠ "reflector")
    (hmap : r.mapping = genericMapping) (d : String) (c : Char)
    (hc : c ∈ genericMapping ++ ['a', 'b'])
    (h1 : -25 ≤ r.currentPos - r.ringSetting)
    (h2 : r.currentPos - r.ringSetting ≤ 25) :
    r.encode c d =
      (if r.currentPos - r.ringSetting = 25 ∧ c = 'Z' then 'A'
       else if r.currentPos - r.ringSetting = -25 ∧ c = 'Y' then 'Z'
       else c.toUpper) := by
  have hbeq : (r.rotorType == "reflector") = false := beq_eq_false_iff_ne.mpr hty
  simp only [Rotor.encode, hmap, hbeq, Bool.false_eq_true, if_false]
  generalize r.currentPos - r.ringSetting = o at h1 h2 ⊢
  by_cases hd : (d == "right") = true
  · simp only [hd, if_true]
    revert c hc
    interval_cases o <;> decide
  · rw [Bool.not_eq_true] at hd
    simp only [hd, Bool.false_eq_true, if_false]
    revert c hc
    interval_cases o <;> decide

/-- Letters A and B (either case) pass every identity-wired rotor
unchanged up to case at every reachable offset. -/
theorem identity_rotor_encode_AB (r : Rotor) (hty : r.rotorType ≠ "reflector")
    (hmap : r.mapping = genericMapping) (d : String) (c : Char)
    (hc : c = 'A' ∨ c = 'B' ∨ c = 'a' ∨ c = 'b')
    (h1 : -25 ≤ r.currentPos - r.ringSetting)
    (h2 : r.currentPos - r.ringSetting ≤ 25) :
    r.encode c d = c.toUpper := by
  have hC1 : ¬(r.currentPos - r.ringSetting = 25 ∧ c = 'Z') := by
    rintro ⟨-, hcz⟩
    rcases hc with h | h | h | h <;> subst h <;> exact absurd hcz (by decide)
  have hC2 : ¬(r.currentPos - r.ringSetting = -25 ∧ c = 'Y') := by
    rintro ⟨-, hcy⟩
    rcases hc with h | h | h | h <;> subst h <;> exact absurd hcy (by decide)
  have h := identity_rotor_encode r hty hmap d c
    (by rcases hc with h | h | h | h <;> subst h <;> decide) h1 h2
  rw [h, if_neg hC1, if_neg hC2]

/-- Uppercasing fixes the uppercase alphabet pointwise. -/
theorem toUpper_mem_generic : ∀ c ∈ genericMapping, c.toUpper = c := by decide

/-- C4 counterexample: an identity-wired rotor at current position 25
with ring setting 1 (internally 0, offset 25) — a combination the claim
covers — maps the letter Z to A instead of returning it unchanged. -/
theorem c4_transparency_counterexample :
    ({ name := "custom", rotorType := "notchlessrotor", mapping := genericMapping,
       notch := [none], ringSetting := 0, currentPos := 25 } : Rotor).encode 'Z' "right" = 'A' ∧
    ('A' : Char) ≠ 'Z' := by
  constructor
  · rfl
  · decide

/-- C4 (amended): a rotor wired with the unchanged alphabet returns its
input letter unchanged from encode, for every current position 0-25,
every ring setting 0-25 and both directions, except at the two extreme
offsets: at offset 25 the letter Z is returned as A, and at offset -25
the letter Y is returned as Z. -/
theorem c4_identity_rotor_transparency_amended (r : Rotor)
    (hty : r.rotorType ≠ "reflector") (hmap : r.mapping = genericMapping)
    (hpos1 : 0 ≤ r.currentPos) (hpos2 : r.currentPos ≤ 25)
    (hring1 : 0 ≤ r.ringSetting) (hring2 : r.ringSetting ≤ 25)
    (c : Char) (hc : c ∈ genericMapping) (d : String) :
    r.encode c d =
      (if r.currentPos - r.ringSetting = 25 ∧ c = 'Z' then 'A'
       else if r.currentPos - r.ringSetting = -25 ∧ c = 'Y' then 'Z'
       else c) := by
  have h := identity_rotor_encode r hty hmap d c
    (List.mem_append_left _ hc) (by omega) (by omega)
  rw [h, toUpper_mem_generic c hc]

/-- C4 witness: the amended theorem applied at a concrete identity
rotor (position 5, ring setting 3, backward direction, letter Q). -/
theorem c4_identity_rotor_transparency_witness :
    ({ name := "custom", rotorType := "notchlessrotor", mapping := genericMapping,
       notch := [none], ringSetting := 2, currentPos := 5 } : Rotor).encode 'Q' "left" = 'Q' := by
  have h := c4_identity_rotor_transparency_amended
    ({ name := "custom", rotorType := "notchlessrotor", mapping := genericMapping,
       notch := [none], ringSetting := 2, currentPos := 5 } : Rotor)
    (by decide) rfl (by decide) (by decide) (by decide) (by decide) 'Q' (by decide) "left"
  rw [h]
  decide

theorem getD_set_ne {α : Type} (l : List α) (i j : Nat) (a d : α) (h : i ≠ j) :
    (l.set i a).getD j d = l.getD j d := by
  simp [List.getD_eq_getElem?_getD, List.getElem?_set_ne h]

theorem getD_set_self {α : Type} (l : List α) (i : Nat) (a d : α) (h : i < l.length) :
    (l.set i a).getD i d = a := by
  simp [List.getD_eq_getElem?_getD, List.getElem?_set_self h]

theorem getD_replicate {α : Type} (k i : Nat) (b : α) :
    (List.replicate k b).getD i b = b := by
  rw [List.getD_eq_getElem?_getD, List.getElem?_replicate]
  split_ifs <;> rfl

theorem ownStep_lengths (st : List Int × List Bool) (i : Nat) :
    (ownStep st i).1.length = st.1.length ∧ (ownStep st i).2.length = st.2.length := by
  unfold ownStep
  exact ⟨List.length_set st.1 i _, List.length_set st.2 i _⟩

theorem stepBody_cases (rotors : List Rotor) (initPos : List Int) (ntr : List Bool)
    (st : List Int × List Bool) (r : Nat) :
    stepBody rotors initPos ntr st r = st ∨
    ((r = 1 ∨ r = 2) ∧
      (stepBody rotors initPos ntr st r = ownStep st (rotors.length - r - 1) ∨
       stepBody rotors initPos ntr st r
         = ownStep (ownStep st (rotors.length - r)) (rotors.length - r - 1))) := by
  unfold stepBody
  dsimp only
  split
  next hg =>
    have hr : r = 1 ∨ r = 2 := by
      rw [Bool.and_eq_true, Bool.and_eq_true] at hg
      have hb := hg.1.2
      simpa only [Bool.or_eq_true, beq_iff_eq] using hb
    rw [if_pos (show r ≤ 2 by omega)]
    split
    next ht => exact Or.inr ⟨hr, Or.inr rfl⟩
    next ht => exact Or.inr ⟨hr, Or.inl rfl⟩
  next hg => exact Or.inl rfl

theorem stepBody_lengths (rotors : List Rotor) (initPos : List Int) (ntr : List Bool)
    (st : List Int × List Bool) (r : Nat) :
    ((stepBody rotors initPos ntr st r).1).length = st.1.length ∧
    ((stepBody rotors initPos ntr st r).2).length = st.2.length := by
  rcases stepBody_cases rotors initPos ntr st r with h | ⟨-, h | h⟩ <;> rw [h]
  · exact ⟨rfl, rfl⟩
  · exact ownStep_lengths st _
  · exact ⟨((ownStep_lengths _ _).1).trans (ownStep_lengths st _).1,
           ((ownStep_lengths _ _).2).trans (ownStep_lengths st _).2⟩

theorem foldl_stepBody_lengths (rotors : List Rotor) (initPos : List Int) (ntr : List Bool)
    (L : List Nat) (st : List Int × List Bool) :
    ((L.foldl (stepBody rotors initPos ntr) st).1).length = st.1.length ∧
    ((L.foldl (stepBody rotors initPos ntr) st).2).length = st.2.length := by
  induction L generalizing st with
  | nil => exact ⟨rfl, rfl⟩
  | cons x xs ih =>
    rw [List.foldl_cons]
    have h1 := stepBody_lengths rotors initPos ntr st x
    have h2 := ih (stepBody rotors initPos ntr st x)
    exact ⟨h2.1.trans h1.1, h2.2.trans h1.2⟩

theorem stepLoop_lengths (rotors : List Rotor) :
    ((stepLoop rotors).1).length = rotors.length ∧
    ((stepLoop rotors).2).length = rotors.length := by
  unfold stepLoop
  have h := foldl_stepBody_lengths rotors (rotors.map (fun x => x.currentPos))
    (notchlessToTheRight rotors) (List.range' 1 rotors.length)
    (rotors.map (fun x => x.currentPos), List.replicate rotors.length false)
  exact ⟨h.1.trans (List.length_map _ _), h.2.trans (List.length_replicate _ _)⟩

theorem stepPositions_length (rotors : List Rotor) :
    (stepPositions rotors).length = rotors.length := by
  unfold stepPositions
  split_ifs
  · exact ((ownStep_lengths _ _).1).trans (stepLoop_lengths rotors).1
  · exact (stepLoop_lengths rotors).1

theorem stepRotors_length (rotors : List Rotor) :
    (stepRotors rotors).length = rotors.length := by
  unfold stepRotors
  rw [List.length_map, List.length_zip, stepPositions_length, Nat.min_self]

theorem getD_int_range (l : List Int) (i : Nat)
    (h : ∀ x ∈ l, 0 ≤ x ∧ x ≤ 25) : 0 ≤ l.getD i 0 ∧ l.getD i 0 ≤ 25 := by
  induction l generalizing i with
  | nil => cases i <;> exact ⟨le_refl 0, by norm_num⟩
  | cons a as ih =>
    cases i with
    | zero => exact h a (List.mem_cons_self a as)
    | succ n => exact ih n (fun x hx => h x (List.mem_cons_of_mem a hx))

theorem positionLooper_succ_range (p : Int) (h1 : 0 ≤ p) (h2 : p ≤ 25) :
    0 ≤ positionLooper (p + 1) 25 ∧ positionLooper (p + 1) 25 ≤ 25 := by
  unfold positionLooper
  split_ifs <;> omega

theorem ownStep_range (st : List Int × List Bool) (i : Nat)
    (h : ∀ x ∈ st.1, 0 ≤ x ∧ x ≤ 25) :
    ∀ x ∈ (ownStep st i).1, 0 ≤ x ∧ x ≤ 25 := by
  intro x hx
  rcases List.mem_or_eq_of_mem_set hx with hmem | heq
  · exact h x hmem
  · subst heq
    exact positionLooper_succ_range _ (getD_int_range st.1 i h).1 (getD_int_range st.1 i h).2

theorem stepBody_range (rotors : List Rotor) (initPos : List Int) (ntr : List Bool)
    (st : List Int × List Bool) (r : Nat)
    (h : ∀ x ∈ st.1, 0 ≤ x ∧ x ≤ 25) :
    ∀ x ∈ (stepBody rotors initPos ntr st r).1, 0 ≤ x ∧ x ≤ 25 := by
  rcases stepBody_cases rotors initPos ntr st r with heq | ⟨-, heq | heq⟩ <;> rw [heq]
  · exact h
  · exact ownStep_range st _ h
  · exact ownStep_range _ _ (ownStep_range st _ h)

theorem foldl_stepBody_range (rotors : List Rotor) (initPos : List Int) (ntr : List Bool)
    (L : List Nat) (st : List Int × List Bool)
    (h : ∀ x ∈ st.1, 0 ≤ x ∧ x ≤ 25) :
    ∀ x ∈ (L.foldl (stepBody rotors initPos ntr) st).1, 0 ≤ x ∧ x ≤ 25 := by
  induction L generalizing st with
  | nil => exact h
  | cons x xs ih =>
    rw [List.foldl_cons]
    exact ih _ (stepBody_range rotors initPos ntr st x h)

theorem stepPositions_range (rotors : List Rotor)
    (hrot : ∀ rr ∈ rotors, 0 ≤ rr.currentPos ∧ rr.currentPos ≤ 25) :
    ∀ x ∈ stepPositions rotors, 0 ≤ x ∧ x ≤ 25 := by
  have hinit : ∀ x ∈ rotors.map (fun x => x.currentPos), 0 ≤ x ∧ x ≤ 25 := by
    intro x hx
    obtain ⟨rr, hrr, rfl⟩ := List.mem_map.mp hx
    exact hrot rr hrr
  have hfold : ∀ x ∈ (stepLoop rotors).1, 0 ≤ x ∧ x ≤ 25 := by
    unfold stepLoop
    exact foldl_stepBody_range rotors _ _ _ _ hinit
  unfold stepPositions
  split_ifs
  · exact ownStep_range _ _ hfold
  · exact hfold

theorem stepRotors_mem (rotors : List Rotor) (rr : Rotor) (h : rr ∈ stepRotors rotors) :
    ∃ a ∈ rotors, rr.name = a.name ∧ rr.rotorType = a.rotorType ∧
      rr.mapping = a.mapping ∧ rr.notch = a.notch ∧ rr.ringSetting = a.ringSetting ∧
      rr.currentPos ∈ stepPositions rotors := by
  unfold stepRotors at h
  obtain ⟨⟨a, b⟩, hm, rfl⟩ := List.mem_map.mp h
  obtain ⟨ha, hb⟩ := List.of_mem_zip hm
  exact ⟨a, ha, rfl, rfl, rfl, rfl, rfl, hb⟩

theorem foldl_identity_encode (rl : List Rotor) (d : String) (c : Char)
    (hc : c = 'A' ∨ c = 'B')
    (hall : ∀ rr ∈ rl, rr.rotorType ≠ "reflector" ∧ rr.mapping = genericMapping ∧
      -25 ≤ rr.currentPos - rr.ringSetting ∧ rr.currentPos - rr.ringSetting ≤ 25) :
    rl.foldl (fun s rr => rr.encode s d) c = c := by
  induction rl with
  | nil => rfl
  | cons x xs ih =>
    have hx := hall x (List.mem_cons_self x xs)
    have hstep : x.encode c d = c := by
      rw [identity_rotor_encode_AB x hx.1 hx.2.1 d c (Or.imp id Or.inl hc)
        hx.2.2.1 hx.2.2.2]
      rcases hc with h | h <;> subst h <;> rfl
    rw [List.foldl_cons, hstep]
    exact ih (fun rr hrr => hall rr (List.mem_cons_of_mem x hrr))

theorem ownStep_getD_ne (st : List Int × List Bool) (i j : Nat) (h : i ≠ j) :
    (ownStep st i).1.getD j 0 = st.1.getD j 0 ∧
    (ownStep st i).2.getD j false = st.2.getD j false :=
  ⟨getD_set_ne _ i j _ _ h, getD_set_ne _ i j _ _ h⟩

theorem stepBody_preserve_last (rotors : List Rotor) (initPos : List Int) (ntr : List Bool)
    (st : List Int × List Bool) (r : Nat) (hr2 : 2 ≤ r) (h3 : 3 ≤ rotors.length) :
    (stepBody rotors initPos ntr st r).1.getD (rotors.length - 1) 0
      = st.1.getD (rotors.length - 1) 0 ∧
    (stepBody rotors initPos ntr st r).2.getD (rotors.length - 1) false
      = st.2.getD (rotors.length - 1) false := by
  rcases stepBody_cases rotors initPos ntr st r with heq | ⟨hr, heq | heq⟩ <;> rw [heq]
  · exact ⟨rfl, rfl⟩
  · obtain rfl : r = 2 := by rcases hr with h | h <;> omega
    exact ownStep_getD_ne st _ _ (by omega)
  · obtain rfl : r = 2 := by rcases hr with h | h <;> omega
    have ha := ownStep_getD_ne (ownStep st (rotors.length - 2)) (rotors.length - 2 - 1)
      (rotors.length - 1) (by omega)
    have hb := ownStep_getD_ne st (rotors.length - 2) (rotors.length - 1) (by omega)
    exact ⟨ha.1.trans hb.1, ha.2.trans hb.2⟩

theorem foldl_stepBody_preserve_last (rotors : List Rotor) (initPos : List Int)
    (ntr : List Bool) (L : List Nat) (hL : ∀ x ∈ L, 2 ≤ x) (h3 : 3 ≤ rotors.length)
    (st : List Int × List Bool) :
    (L.foldl (stepBody rotors initPos ntr) st).1.getD (rotors.length - 1) 0
      = st.1.getD (rotors.length - 1) 0 ∧
    (L.foldl (stepBody rotors initPos ntr) st).2.getD (rotors.length - 1) false
      = st.2.getD (rotors.length - 1) false := by
  induction L generalizing st with
  | nil => exact ⟨rfl, rfl⟩
  | cons x xs ih =>
    rw [List.foldl_cons]
    have h1 := stepBody_preserve_last rotors initPos ntr st x
      (hL x (List.mem_cons_self x xs)) h3
    have h2 := ih (fun y hy => hL y (List.mem_cons_of_mem x hy))
      (stepBody rotors initPos ntr st x)
    exact ⟨h2.1.trans h1.1, h2.2.trans h1.2⟩

theorem foldl_one_cons_last (rotors : List Rotor) (initPos : List Int) (ntr : List Bool)
    (L : List Nat) (hL : ∀ x ∈ L, 2 ≤ x) (h3 : 3 ≤ rotors.length)
    (st0 : List Int × List Bool)
    (hlen1 : st0.1.length = rotors.length)
    (hlen2 : st0.2.length = rotors.length)
    (ht0 : st0.2.getD (rotors.length - 1) false = false) :
    (((1 :: L).foldl (stepBody rotors initPos ntr) st0).1.getD (rotors.length - 1) 0
        = positionLooper (st0.1.getD (rotors.length - 1) 0 + 1) 25 ∧
      ((1 :: L).foldl (stepBody rotors initPos ntr) st0).2.getD (rotors.length - 1) false
        = true) ∨
    (((1 :: L).foldl (stepBody rotors initPos ntr) st0).1.getD (rotors.length - 1) 0
        = st0.1.getD (rotors.length - 1) 0 ∧
      ((1 :: L).foldl (stepBody rotors initPos ntr) st0).2.getD (rotors.length - 1) false
        = false) := by
  rw [List.foldl_cons]
  have hpres := foldl_stepBody_preserve_last rotors initPos ntr L hL h3
    (stepBody rotors initPos ntr st0 1)
  rcases stepBody_cases rotors initPos ntr st0 1 with heq | ⟨-, heq | heq⟩ <;> rw [heq] at hpres ⊢
  · right
    exact ⟨hpres.1.trans rfl, hpres.2.trans ht0⟩
  · right
    have h := ownStep_getD_ne st0 (rotors.length - 1 - 1) (rotors.length - 1) (by omega)
    exact ⟨hpres.1.trans h.1, hpres.2.trans (h.2.trans ht0)⟩
  · left
    have hinner1 : (ownStep st0 (rotors.length - 1)).1.getD (rotors.length - 1) 0
        = positionLooper (st0.1.getD (rotors.length - 1) 0 + 1) 25 :=
      getD_set_self _ _ _ _ (by omega)
    have hinner2 : (ownStep st0 (rotors.length - 1)).2.getD (rotors.length - 1) false
        = true :=
      getD_set_self _ _ _ _ (by omega)
    have houter := ownStep_getD_ne (ownStep st0 (rotors.length - 1))
      (rotors.length - 1 - 1) (rotors.length - 1) (by omega)
    exact ⟨hpres.1.trans (houter.1.trans hinner1),
           hpres.2.trans (houter.2.trans hinner2)⟩

theorem stepLoop_last (rotors : List Rotor) (h3 : 3 ≤ rotors.length) :
    ((stepLoop rotors).1.getD (rotors.length - 1) 0
        = positionLooper
            ((rotors.map (fun x => x.currentPos)).getD (rotors.length - 1) 0 + 1) 25 ∧
      (stepLoop rotors).2.getD (rotors.length - 1) false = true) ∨
    ((stepLoop rotors).1.getD (rotors.length - 1) 0
        = (rotors.map (fun x => x.currentPos)).getD (rotors.length - 1) 0 ∧
      (stepLoop rotors).2.getD (rotors.length - 1) false = false) := by
  have hrange : List.range' 1 rotors.length
      = 1 :: List.range' (1 + 1) (rotors.length - 1) := by
    conv_lhs => rw [show rotors.length = (rotors.length - 1) + 1 from by omega]
    rw [List.range'_succ]
  have hL : ∀ x ∈ List.range' (1 + 1) (rotors.length - 1), 2 ≤ x := by
    intro x hx
    obtain ⟨i, -, rfl⟩ := List.mem_range'.mp hx
    omega
  unfold stepLoop
  rw [hrange]
  exact foldl_one_cons_last rotors _ _ _ hL h3 _
    (List.length_map _ _) (List.length_replicate _ _)
    (getD_replicate rotors.length (rotors.length - 1) false)

theorem stepPositions_last (rotors : List Rotor) (h3 : 3 ≤ rotors.length) :
    (stepPositions rotors).getD (rotors.length - 1) 0
      = positionLooper
          ((rotors.map (fun x => x.currentPos)).getD (rotors.length - 1) 0 + 1) 25 := by
  unfold stepPositions
  rcases stepLoop_last rotors h3 with ⟨hp, ht⟩ | ⟨hp, ht⟩
  · rw [ht]
    simp only [Bool.not_true, Bool.false_eq_true, if_false]
    exact hp
  · rw [ht]
    simp only [Bool.not_false, if_true]
    unfold ownStep
    rw [getD_set_self _ _ _ _ (by rw [(stepLoop_lengths rotors).1]; omega), hp]

theorem positionLooper_succ_mod (p : Int) (h1 : 0 ≤ p) (h2 : p ≤ 25) :
    positionLooper (p + 1) 25 = (p + 1) % 26 := by
  unfold positionLooper
  split_ifs <;> omega

theorem getD_map_currentPos (l : List Rotor) (i : Nat) :
    (l.map (fun x => x.currentPos)).getD i 0 = (l.getD i defaultRotor).currentPos := by
  induction l generalizing i with
  | nil => cases i <;> rfl
  | cons a as ih =>
    cases i with
    | zero => rfl
    | succ n => exact ih n

theorem map_currentPos_stepRotors (rotors : List Rotor) :
    (stepRotors rotors).map (fun r => r.currentPos) = stepPositions rotors := by
  unfold stepRotors
  rw [List.map_map]
  have hcomp : ((fun r : Rotor => r.currentPos)
      ∘ fun p : Rotor × Int => { p.1 with currentPos := p.2 }) = Prod.snd := rfl
  rw [hcomp, List.map_snd_zip]
  rw [stepPositions_length]

theorem stepRotors_getD_currentPos (rotors : List Rotor) (i : Nat) :
    ((stepRotors rotors).getD i defaultRotor).currentPos
      = (stepPositions rotors).getD i 0 := by
  rw [← map_currentPos_stepRotors]
  exact (getD_map_currentPos _ i).symm

/-- C6: for every machine with at least 3 rotors and the rightmost
rotor at a position 0-25, each call encoding one character advances the
rightmost rotor's position by exactly one modulo 26 — never zero, never
two — including the wrap from 25 to 0, regardless of notches. -/
theorem c6_rightmost_unconditional_step (M : EnigmaMachine) (c : Char)
    (h3 : 3 ≤ M.rotorsList.length)
    (h1 : 0 ≤ (M.rotorsList.getD (M.rotorsList.length - 1) defaultRotor).currentPos)
    (h2 : (M.rotorsList.getD (M.rotorsList.length - 1) defaultRotor).currentPos ≤ 25) :
    (((M.fullEncode c).2.rotorsList).getD (M.rotorsList.length - 1) defaultRotor).currentPos
      = ((M.rotorsList.getD (M.rotorsList.length - 1) defaultRotor).currentPos + 1) % 26 := by
  have hstep : (M.fullEncode c).2.rotorsList = stepRotors M.rotorsList := rfl
  rw [hstep, stepRotors_getD_currentPos, stepPositions_last M.rotorsList h3,
    getD_map_currentPos, positionLooper_succ_mod _ h1 h2]

theorem fullEncode_identity_letter (rs : List Rotor) (pbN : Int) (refl : Rotor)
    (hlen : 1 ≤ rs.length)
    (hrot : ∀ rr ∈ rs, rr.rotorType = "notchlessrotor" ∧ rr.mapping = genericMapping ∧
      0 ≤ rr.currentPos ∧ rr.currentPos ≤ 25 ∧ 0 ≤ rr.ringSetting ∧ rr.ringSetting ≤ 25)
    (hrefl : refl.rotorType = "reflector")
    (cIn cOut : Char) (hin : cIn = 'A' ∨ cIn = 'B')
    (hmr : pyGetD refl.mapping ((genericMapping.indexOf cIn : Nat) : Int) '?' = cOut)
    (hout : cOut = 'A' ∨ cOut = 'B') :
    ((⟨rs, ⟨[], [], pbN⟩, refl⟩ : EnigmaMachine).fullEncode cIn).1 = cOut := by
  have hall : ∀ rr ∈ stepRotors rs, rr.rotorType ≠ "reflector" ∧
      rr.mapping = genericMapping ∧
      -25 ≤ rr.currentPos - rr.ringSetting ∧ rr.currentPos - rr.ringSetting ≤ 25 := by
    intro rr hrr
    obtain ⟨a, ha, -, hty, hmapeq, -, hring, hposmem⟩ := stepRotors_mem rs rr hrr
    have hha := hrot a ha
    have hpr := stepPositions_range rs
      (fun x hx => ⟨(hrot x hx).2.2.1, (hrot x hx).2.2.2.1⟩) _ hposmem
    have hr0 := hha.2.2.2.2.1
    have hr25 := hha.2.2.2.2.2
    have hp0 := hpr.1
    have hp25 := hpr.2
    refine ⟨by rw [hty, hha.1]; decide, by rw [hmapeq]; exact hha.2.1, ?_, ?_⟩ <;>
      rw [hring] <;> omega
  have hpb1 : (⟨[], [], pbN⟩ : Plugboard).encode (cIn.toLower) = cIn := by
    rcases hin with rfl | rfl <;> rfl
  have hfwd : (stepRotors rs).reverse.foldl (fun s r => r.encode s "right") cIn = cIn :=
    foldl_identity_encode _ _ _ hin (fun rr hrr => hall rr (List.mem_reverse.mp hrr))
  have hrfl2 : refl.encode cIn "left" = cOut.toLower := by
    have hb : (refl.rotorType == "reflector") = true := by
      rw [hrefl]
      rfl
    simp only [Rotor.encode, hb, if_true]
    have hup : (cIn.toLower).toUpper = cIn := by rcases hin with rfl | rfl <;> rfl
    rw [hup, hmr]
  obtain ⟨y, ys, hys⟩ : ∃ y ys, stepRotors rs = y :: ys := by
    cases h : stepRotors rs with
    | nil =>
        exfalso
        have hl := stepRotors_length rs
        rw [h] at hl
        simp at hl
        omega
    | cons y ys => exact ⟨y, ys, rfl⟩
  have hback : (stepRotors rs).foldl (fun s r => r.encode s "left") (cOut.toLower) = cOut := by
    rw [hys, List.foldl_cons]
    have hy := hall y (by rw [hys]; exact List.mem_cons_self y ys)
    have h1 : y.encode (cOut.toLower) "left" = cOut := by
      rw [identity_rotor_encode_AB y hy.1 hy.2.1 "left" (cOut.toLower) ?hc hy.2.2.1 hy.2.2.2]
      case hc =>
        rcases hout with rfl | rfl
        · exact Or.inr (Or.inr (Or.inl rfl))
        · exact Or.inr (Or.inr (Or.inr rfl))
      rcases hout with rfl | rfl <;> rfl
    rw [h1]
    exact foldl_identity_encode ys "left" cOut hout
      (fun rr hrr => hall rr (by rw [hys]; exact List.mem_cons_of_mem y hrr))
  have hpb2 : (⟨[], [], pbN⟩ : Plugboard).encode cOut = cOut := by
    rcases hout with rfl | rfl <;> rfl
  have hupOut : cOut.toUpper = cOut := by rcases hout with rfl | rfl <;> rfl
  show ((⟨[], [], pbN⟩ : Plugboard).encode
      ((stepRotors rs).foldl (fun s r => r.encode s "left")
        (refl.encode
          ((stepRotors rs).reverse.foldl (fun s r => r.encode s "right")
            ((⟨[], [], pbN⟩ : Plugboard).encode (cIn.toLower))) "left"))).toUpper = cOut
  rw [hpb1, hfwd, hrfl2, hback, hpb2, hupOut]

/-- C2: on a machine of identity-wired notch-less rotors, an empty
plugboard and a reflector whose wiring is a full pairing including A-B,
encoding the letter A on a freshly configured machine returns B and
encoding B on a second freshly configured machine with identical
settings returns A. -/
theorem c2_reciprocity (rs : List Rotor) (pbN : Int) (refl : Rotor)
    (hlen : 3 ≤ rs.length)
    (hrot : ∀ rr ∈ rs, rr.rotorType = "notchlessrotor" ∧ rr.notch = [none] ∧
      rr.mapping = genericMapping ∧ 0 ≤ rr.currentPos ∧ rr.currentPos ≤ 25 ∧
      0 ≤ rr.ringSetting ∧ rr.ringSetting ≤ 25)
    (hrefl : refl.rotorType = "reflector")
    (hpair : isFixedPointFreeInvolution refl.mapping)
    (hA : pyGetD refl.mapping 0 '?' = 'B')
    (hB : pyGetD refl.mapping 1 '?' = 'A') :
    ((⟨rs, ⟨[], [], pbN⟩, refl⟩ : EnigmaMachine).fullEncode 'A').1 = 'B' ∧
    ((⟨rs, ⟨[], [], pbN⟩, refl⟩ : EnigmaMachine).fullEncode 'B').1 = 'A' := by
  have hrot' : ∀ rr ∈ rs, rr.rotorType = "notchlessrotor" ∧ rr.mapping = genericMapping ∧
      0 ≤ rr.currentPos ∧ rr.currentPos ≤ 25 ∧ 0 ≤ rr.ringSetting ∧ rr.ringSetting ≤ 25 :=
    fun rr hrr => ⟨(hrot rr hrr).1, (hrot rr hrr).2.2.1, (hrot rr hrr).2.2.2.1,
      (hrot rr hrr).2.2.2.2.1, (hrot rr hrr).2.2.2.2.2.1, (hrot rr hrr).2.2.2.2.2.2⟩
  constructor
  · exact fullEncode_identity_letter rs pbN refl (by omega) hrot' hrefl 'A' 'B'
      (Or.inl rfl) hA (Or.inr rfl)
  · exact fullEncode_identity_letter rs pbN refl (by omega) hrot' hrefl 'B' 'A'
      (Or.inr rfl) hB (Or.inl rfl)

/-- C2 witness: the reciprocity theorem applied to a concrete 3-rotor
identity machine with the adjacent-swap full pairing reflector. -/
theorem c2_reciprocity_witness :
    ((⟨[{ name := "custom", rotorType := "notchlessrotor", mapping := genericMapping,
          notch := [none], ringSetting := 0, currentPos := 0 },
        { name := "custom", rotorType := "notchlessrotor", mapping := genericMapping,
          notch := [none], ringSetting := 3, currentPos := 5 },
        { name := "custom", rotorType := "notchlessrotor", mapping := genericMapping,
          notch := [none], ringSetting := 25, currentPos := 0 }],
       ⟨[], [], 10⟩,
       { name := "custom", rotorType := "reflector",
         mapping := ['B', 'A', 'D', 'C', 'F', 'E', 'H', 'G', 'J', 'I', 'L', 'K', 'N',
                     'M', 'P', 'O', 'R', 'Q', 'T', 'S', 'V', 'U', 'X', 'W', 'Z', 'Y'],
         notch := [none], ringSetting := 0, currentPos := 0 }⟩ :
        EnigmaMachine).fullEncode 'A').1 = 'B' ∧
    ((⟨[{ name := "custom", rotorType := "notchlessrotor", mapping := genericMapping,
          notch := [none], ringSetting := 0, currentPos := 0 },
        { name := "custom", rotorType := "notchlessrotor", mapping := genericMapping,
          notch := [none], ringSetting := 3, currentPos := 5 },
        { name := "custom", rotorType := "notchlessrotor", mapping := genericMapping,
          notch := [none], ringSetting := 25, currentPos := 0 }],
       ⟨[], [], 10⟩,
       { name := "custom", rotorType := "reflector",
         mapping := ['B', 'A', 'D', 'C', 'F', 'E', 'H', 'G', 'J', 'I', 'L', 'K', 'N',
                     'M', 'P', 'O', 'R', 'Q', 'T', 'S', 'V', 'U', 'X', 'W', 'Z', 'Y'],
         notch := [none], ringSetting := 0, currentPos := 0 }⟩ :
        EnigmaMachine).fullEncode 'B').1 = 'A' :=
  c2_reciprocity _ 10 _ (by decide) (by decide) rfl
    ⟨rfl, by decide⟩ rfl rfl

theorem notchlessToTheRight_three (a b c : Rotor) :
    notchlessToTheRight [a, b, c]
      = [false, c.rotorType == "notchless", b.rotorType == "notchless"] := rfl

theorem stepLoop_three (a b c : Rotor)
    (hbty : (b.rotorType == "notchless") = false)
    (hb : b.notch.contains (some (pyGetD genericMapping b.currentPos '?')) = false) :
    stepLoop [a, b, c] =
      if c.notch.contains (some (pyGetD genericMapping c.currentPos '?')) then
        ([a.currentPos, positionLooper (b.currentPos + 1) 25,
          positionLooper (c.currentPos + 1) 25], [false, true, true])
      else
        ([a.currentPos, b.currentPos, c.currentPos], [false, false, false]) := by
  have hinit : ([a, b, c] : List Rotor).map (fun x => x.currentPos)
      = [a.currentPos, b.currentPos, c.currentPos] := rfl
  have hbmem : some (pyGetD genericMapping b.currentPos '?') ∉ b.notch := by
    intro hm
    have h2 : b.notch.contains (some (pyGetD genericMapping b.currentPos '?')) = true :=
      List.elem_iff.mpr hm
    rw [hb] at h2
    exact Bool.false_ne_true h2
  unfold stepLoop
  rw [show List.range' 1 ([a, b, c] : List Rotor).length = [1, 2, 3] from rfl]
  rw [List.foldl_cons, List.foldl_cons, List.foldl_cons, List.foldl_nil]
  by_cases hcg : c.notch.contains (some (pyGetD genericMapping c.currentPos '?')) = true
  · rw [if_pos hcg]
    have hcmem : some (pyGetD genericMapping c.currentPos '?') ∈ c.notch :=
      List.elem_iff.mp hcg
    have h1 : stepBody [a, b, c] ([a, b, c].map (fun x => x.currentPos))
        (notchlessToTheRight [a, b, c])
        ([a, b, c].map (fun x => x.currentPos),
          List.replicate ([a, b, c] : List Rotor).length false) 1
        = ([a.currentPos, positionLooper (b.currentPos + 1) 25,
            positionLooper (c.currentPos + 1) 25], [false, true, true]) := by
      unfold stepBody
      rw [notchlessToTheRight_three]
      simp only [hinit, List.length_cons, List.length_nil]
      norm_num [List.getD, ownStep, hcg, hbty]
      rw [if_pos hcmem]
      rfl
    rw [h1]
    have h2 : stepBody [a, b, c] ([a, b, c].map (fun x => x.currentPos))
        (notchlessToTheRight [a, b, c])
        ([a.currentPos, positionLooper (b.currentPos + 1) 25,
          positionLooper (c.currentPos + 1) 25], [false, true, true]) 2
        = ([a.currentPos, positionLooper (b.currentPos + 1) 25,
            positionLooper (c.currentPos + 1) 25], [false, true, true]) := by
      unfold stepBody
      simp only [hinit, List.length_cons, List.length_nil]
      norm_num [List.getD, hb]
      intro hm
      exact absurd hm hbmem
    rw [h2]
    unfold stepBody
    norm_num [List.getD]
  · rw [if_neg hcg]
    rw [Bool.not_eq_true] at hcg
    have hcmem : some (pyGetD genericMapping c.currentPos '?') ∉ c.notch := by
      intro hm
      have h2 : c.notch.contains (some (pyGetD genericMapping c.currentPos '?')) = true :=
        List.elem_iff.mpr hm
      rw [hcg] at h2
      exact Bool.false_ne_true h2
    have h1 : stepBody [a, b, c] ([a, b, c].map (fun x => x.currentPos))
        (notchlessToTheRight [a, b, c])
        ([a, b, c].map (fun x => x.currentPos),
          List.replicate ([a, b, c] : List Rotor).length false) 1
        = ([a.currentPos, b.currentPos, c.currentPos], [false, false, false]) := by
      unfold stepBody
      simp only [hinit, List.length_cons, List.length_nil]
      norm_num [List.getD, hcg]
      rw [if_neg (fun hh => hcmem hh.1)]
      rfl
    rw [h1]
    have h2 : stepBody [a, b, c] ([a, b, c].map (fun x => x.currentPos))
        (notchlessToTheRight [a, b, c])
        ([a.currentPos, b.currentPos, c.currentPos], [false, false, false]) 2
        = ([a.currentPos, b.currentPos, c.currentPos], [false, false, false]) := by
      unfold stepBody
      simp only [hinit, List.length_cons, List.length_nil]
      norm_num [List.getD, hb]
      intro hm
      exact absurd hm hbmem
    rw [h2]
    unfold stepBody
    norm_num [List.getD]

theorem stepPositions_three (a b c : Rotor)
    (hbty : (b.rotorType == "notchless") = false)
    (hb : b.notch.contains (some (pyGetD genericMapping b.currentPos '?')) = false) :
    stepPositions [a, b, c] =
      if c.notch.contains (some (pyGetD genericMapping c.currentPos '?')) then
        [a.currentPos, positionLooper (b.currentPos + 1) 25,
         positionLooper (c.currentPos + 1) 25]
      else
        [a.currentPos, b.currentPos, positionLooper (c.currentPos + 1) 25] := by
  unfold stepPositions
  rw [stepLoop_three a b c hbty hb]
  by_cases hcg : c.notch.contains (some (pyGetD genericMapping c.currentPos '?')) = true
  · rw [if_pos hcg, if_pos hcg]
    rfl
  · rw [if_neg hcg, if_neg hcg]
    rfl

theorem stepRotors_three (a b c : Rotor) (p0 p1 p2 : Int)
    (hp : stepPositions [a, b, c] = [p0, p1, p2]) :
    stepRotors [a, b, c]
      = [{a with currentPos := p0}, {b with currentPos := p1},
         {c with currentPos := p2}] := by
  unfold stepRotors
  rw [hp]
  rfl

/-- C1: in a 3-rotor machine whose rightmost rotor has notch set {Q}
and position index 15 (letter P), with the middle rotor not at its own
notch, the first encoded character moves the rightmost rotor from 15 to
16 leaving the middle rotor unchanged, and the second encoded character
moves the rightmost rotor from 16 to 17 and advances the middle rotor
by exactly one, because the pre-step letter Q is in the notch set. -/
theorem c1_double_stepping (pb : Plugboard) (refl : Rotor) (a b c : Rotor) (c1 c2 : Char)
    (hnotch : c.notch = [some 'Q'])
    (hpos : c.currentPos = 15)
    (hbty : b.rotorType = "notchrotor" ∨ b.rotorType = "notchlessrotor")
    (hb : b.notch.contains (some (pyGetD genericMapping b.currentPos '?')) = false)
    (hm0 : 0 ≤ b.currentPos) (hm25 : b.currentPos ≤ 25) :
    ((⟨[a, b, c], pb, refl⟩ : EnigmaMachine).fullEncode c1).2.rotorsList.map
        (fun r => r.currentPos) = [a.currentPos, b.currentPos, 16] ∧
    (((⟨[a, b, c], pb, refl⟩ : EnigmaMachine).fullEncode c1).2.fullEncode
        c2).2.rotorsList.map (fun r => r.currentPos)
      = [a.currentPos, (b.currentPos + 1) % 26, 17] := by
  have hbty' : (b.rotorType == "notchless") = false := by
    rcases hbty with h | h <;> rw [h] <;> rfl
  have hsp1 : stepPositions [a, b, c] = [a.currentPos, b.currentPos, 16] := by
    rw [stepPositions_three a b c hbty' hb, hpos, hnotch, if_neg (by decide)]
    rfl
  have hsr : stepRotors [a, b, c] = [a, b, {c with currentPos := 16}] := by
    rw [stepRotors_three a b c a.currentPos b.currentPos 16 hsp1]
  have hsp2 : stepPositions [a, b, {c with currentPos := 16}]
      = [a.currentPos, (b.currentPos + 1) % 26, 17] := by
    rw [stepPositions_three a b _ hbty' hb]
    dsimp only
    rw [hnotch, if_pos (by decide), positionLooper_succ_mod b.currentPos hm0 hm25]
    rfl
  constructor
  · rw [show ((⟨[a, b, c], pb, refl⟩ : EnigmaMachine).fullEncode c1).2.rotorsList
        = stepRotors [a, b, c] from rfl, map_currentPos_stepRotors, hsp1]
  · rw [show (((⟨[a, b, c], pb, refl⟩ : EnigmaMachine).fullEncode c1).2.fullEncode
          c2).2.rotorsList = stepRotors (stepRotors [a, b, c]) from rfl,
        hsr, map_currentPos_stepRotors, hsp2]

/-- C1 witness: the double-stepping theorem applied to a concrete
machine (rotors III, II, I with rotor I at P). -/
theorem c1_witness :
    ((⟨[RotorIII 1 'A', RotorII 1 'A', RotorI 1 'P'], ⟨[], [], 10⟩,
        { name := "B", rotorType := "reflector",
          mapping := ['Y', 'R', 'U', 'H', 'Q', 'S', 'L', 'D', 'P', 'X', 'N', 'G', 'O',
                      'K', 'M', 'I', 'E', 'B', 'F', 'Z', 'C', 'W', 'V', 'J', 'A', 'T'],
          notch := [none], ringSetting := 0, currentPos := 0 }⟩ :
        EnigmaMachine).fullEncode 'A').2.rotorsList.map (fun r => r.currentPos)
      = [0, 0, 16] ∧
    (((⟨[RotorIII 1 'A', RotorII 1 'A', RotorI 1 'P'], ⟨[], [], 10⟩,
        { name := "B", rotorType := "reflector",
          mapping := ['Y', 'R', 'U', 'H', 'Q', 'S', 'L', 'D', 'P', 'X', 'N', 'G', 'O',
                      'K', 'M', 'I', 'E', 'B', 'F', 'Z', 'C', 'W', 'V', 'J', 'A', 'T'],
          notch := [none], ringSetting := 0, currentPos := 0 }⟩ :
        EnigmaMachine).fullEncode 'A').2.fullEncode 'A').2.rotorsList.map
        (fun r => r.currentPos) = [0, 1, 17] :=
  c1_double_stepping ⟨[], [], 10⟩
    { name := "B", rotorType := "reflector",
      mapping := ['Y', 'R', 'U', 'H', 'Q', 'S', 'L', 'D', 'P', 'X', 'N', 'G', 'O',
                  'K', 'M', 'I', 'E', 'B', 'F', 'Z', 'C', 'W', 'V', 'J', 'A', 'T'],
      notch := [none], ringSetting := 0, currentPos := 0 }
    (RotorIII 1 'A') (RotorII 1 'A') (RotorI 1 'P') 'A' 'A'
    rfl rfl (Or.inl rfl) (by decide) (by decide) (by decide)

/-- C6 witness: the unconditional-step theorem applied to a concrete
3-rotor machine whose rightmost rotor sits at index 15. -/
theorem c6_witness :
    (((⟨[RotorIII 1 'A', RotorII 1 'A', RotorI 1 'P'], ⟨[], [], 10⟩,
        { name := "B", rotorType := "reflector",
          mapping := ['Y', 'R', 'U', 'H', 'Q', 'S', 'L', 'D', 'P', 'X', 'N', 'G', 'O',
                      'K', 'M', 'I', 'E', 'B', 'F', 'Z', 'C', 'W', 'V', 'J', 'A', 'T'],
          notch := [none], ringSetting := 0, currentPos := 0 }⟩ :
        EnigmaMachine).fullEncode 'Z').2.rotorsList.getD 2 defaultRotor).currentPos
      = 16 :=
  c6_rightmost_unconditional_step
    ⟨[RotorIII 1 'A', RotorII 1 'A', RotorI 1 'P'], ⟨[], [], 10⟩,
      { name := "B", rotorType := "reflector",
        mapping := ['Y', 'R', 'U', 'H', 'Q', 'S', 'L', 'D', 'P', 'X', 'N', 'G', 'O',
                    'K', 'M', 'I', 'E', 'B', 'F', 'Z', 'C', 'W', 'V', 'J', 'A', 'T'],
        notch := [none], ringSetting := 0, currentPos := 0 }⟩
    'Z' (by decide) (by decide) (by decide)

theorem length_two_pair {α : Type} (l : List α) (h : l.length = 2) :
    ∃ a b, l = [a, b] := by
  cases l with
  | nil => simp at h
  | cons a t =>
    cases t with
    | nil => simp at h
    | cons b t2 =>
      cases t2 with
      | nil => exact ⟨a, b, rfl⟩
      | cons e t3 => simp at h

theorem mem_leadLetters (x : PlugLead) (leads : List PlugLead) (hx : x ∈ leads)
    (c : Char) (hc : c ∈ x.lettersList) : c ∈ leadLetters leads := by
  induction leads with
  | nil => cases hx
  | cons y rest ih =>
    rcases List.mem_cons.mp hx with rfl | hx'
    · exact List.mem_append_left _ hc
    · exact List.mem_append_right _ (ih hx')

theorem contains_eq_true_of_mem {c : Char} {L : List Char} (h : c ∈ L) :
    L.contains c = true := List.elem_iff.mpr h

theorem contains_eq_false_of_not_mem {c : Char} {L : List Char} (h : c ∉ L) :
    L.contains c = false := by
  rw [← Bool.not_eq_true]
  intro hx
  exact h (List.elem_iff.mp hx)

theorem pluglead_encode_pair (y : PlugLead) (l p : Char) (hlp : p ≠ l)
    (hl : l.toLower = l)
    (hy : y.lettersList = [l, p] ∨ y.lettersList = [p, l]) :
    y.encode l = p.toUpper := by
  unfold PlugLead.encode
  dsimp only
  rw [hl]
  rcases hy with h | h <;> rw [h]
  · rw [show (!([l, p].contains l)) = false by
      rw [contains_eq_true_of_mem (by simp)]; rfl]
    simp only [Bool.false_eq_true, if_false]
    rw [show [l, p].filter (fun x => x ≠ l) = [p] by
      simp [List.filter, hlp]]
    rfl
  · rw [show (!([p, l].contains l)) = false by
      rw [contains_eq_true_of_mem (by simp)]; rfl]
    simp only [Bool.false_eq_true, if_false]
    rw [show [p, l].filter (fun x => x ≠ l) = [p] by
      simp [List.filter, hlp]]
    rfl

theorem encode_wired (leads : List PlugLead) (n : Int) (l p : Char)
    (hv2 : ∀ pl ∈ leads, pl.Valid)
    (hnd : (leadLetters leads).Nodup)
    (x : PlugLead) (hx : x ∈ leads)
    (hxl : x.lettersList = [l, p] ∨ x.lettersList = [p, l])
    (c : Char) (hcl : c.toLower = l) (hll : l.toLower = l) :
    Plugboard.encode ⟨leadLetters leads, leads, n⟩ c = p.toUpper := by
  induction leads with
  | nil => cases hx
  | cons y rest ih =>
    have hyv := hv2 y (List.mem_cons_self y rest)
    obtain ⟨a, b, hab⟩ := length_two_pair y.lettersList hyv.1
    have hndy : y.lettersList.Nodup := hyv.2.1
    have hsplit : leadLetters (y :: rest) = y.lettersList ++ leadLetters rest := rfl
    have hnd' : (y.lettersList ++ leadLetters rest).Nodup := by rw [← hsplit]; exact hnd
    have hndrest : (leadLetters rest).Nodup := (List.nodup_append.mp hnd').2.1
    have hdisj : ∀ z ∈ y.lettersList, z ∉ leadLetters rest := by
      intro z hz hz'
      exact (List.nodup_append.mp hnd').2.2 hz hz'
    rcases List.mem_cons.mp hx with rfl | hx'
    · -- the pair lead is the head
      have hlp : p ≠ l := by
        rcases hxl with h | h <;> rw [h] at hndy <;> simp at hndy <;>
          [exact fun he => hndy (he ▸ rfl); exact hndy]
      have hlmem : l ∈ x.lettersList := by
        rcases hxl with h | h <;> rw [h] <;> simp
      unfold Plugboard.encode
      dsimp only
      rw [hcl]
      rw [contains_eq_true_of_mem (mem_leadLetters x (x :: rest)
        (List.mem_cons_self x rest) l hlmem)]
      simp only [if_true]
      have hidx : List.indexOf l (leadLetters (x :: rest)) / 2 = 0 := by
        rw [hsplit]
        rcases hxl with h | h <;> rw [h]
        · rw [show ([l, p] ++ leadLetters rest) = l :: (p :: leadLetters rest) from rfl,
            List.indexOf_cons_self]
        · rw [show ([p, l] ++ leadLetters rest) = p :: (l :: leadLetters rest) from rfl,
            List.indexOf_cons_ne _ hlp, List.indexOf_cons_self]
      rw [hidx]
      rw [show (x :: rest).getD 0 defaultPlugLead = x from rfl]
      exact pluglead_encode_pair x l p hlp hll hxl
    · -- the pair lead is in the tail
      have hlmem : l ∈ leadLetters rest :=
        mem_leadLetters x rest hx' l
          (by rcases hxl with h | h <;> rw [h] <;> simp)
      have hlny : l ∉ y.lettersList := fun hz => hdisj l hz hlmem
      have hna : a ≠ l := by rw [hab] at hlny; intro he; exact hlny (by simp [he])
      have hnb : b ≠ l := by rw [hab] at hlny; intro he; exact hlny (by simp [he])
      have hrec := ih (fun pl hpl => hv2 pl (List.mem_cons_of_mem y hpl)) hndrest hx'
      unfold Plugboard.encode at hrec ⊢
      dsimp only at hrec ⊢
      rw [hcl] at hrec ⊢
      rw [contains_eq_true_of_mem hlmem] at hrec
      rw [contains_eq_true_of_mem (by
        rw [hsplit]; exact List.mem_append_right _ hlmem)]
      simp only [if_true] at hrec ⊢
      have hidx : List.indexOf l (leadLetters (y :: rest))
          = (List.indexOf l (leadLetters rest)) + 2 := by
        rw [hsplit, hab]
        rw [show ([a, b] ++ leadLetters rest) = a :: (b :: leadLetters rest) from rfl,
          List.indexOf_cons_ne _ hna, List.indexOf_cons_ne _ hnb]
      rw [hidx, Nat.add_div_right _ (by norm_num)]
      rw [show ∀ k, (y :: rest).getD (k + 1) defaultPlugLead = rest.getD k defaultPlugLead
        from fun k => rfl]
      exact hrec

theorem alpha_toLower_mem (c : Char) (hc : c ∈ lowerAlphabet ∨ c ∈ genericMapping) :
    c.toLower ∈ lowerAlphabet := by
  rcases hc with h | h
  · exact (show ∀ x ∈ lowerAlphabet, x.toLower ∈ lowerAlphabet from by decide) c h
  · exact (show ∀ x ∈ genericMapping, x.toLower ∈ lowerAlphabet from by decide) c h

theorem alpha_toLower_toUpper (c : Char) (hc : c ∈ lowerAlphabet ∨ c ∈ genericMapping) :
    c.toLower.toUpper = c.toUpper := by
  rcases hc with h | h
  · exact (show ∀ x ∈ lowerAlphabet, x.toLower.toUpper = x.toUpper from by decide) c h
  · exact (show ∀ x ∈ genericMapping, x.toLower.toUpper = x.toUpper from by decide) c h

theorem lower_toLower (x : Char) (hx : x ∈ lowerAlphabet) : x.toLower = x :=
  (show ∀ z ∈ lowerAlphabet, z.toLower = z from by decide) x hx

theorem lower_toUpper_toLower (x : Char) (hx : x ∈ lowerAlphabet) :
    x.toUpper.toLower = x :=
  (show ∀ z ∈ lowerAlphabet, z.toUpper.toLower = z from by decide) x hx

theorem lower_toUpper_mem (x : Char) (hx : x ∈ lowerAlphabet) :
    x.toUpper ∈ genericMapping :=
  (show ∀ z ∈ lowerAlphabet, z.toUpper ∈ genericMapping from by decide) x hx

theorem encode_unwired (pb : Plugboard) (c : Char)
    (hno : c.toLower ∉ pb.plugLeadsLetters) :
    pb.encode c = c.toLower.toUpper := by
  unfold Plugboard.encode
  dsimp only
  rw [contains_eq_false_of_not_mem hno]
  rfl

theorem exists_lead_pair (leads : List PlugLead) (hv2 : ∀ pl ∈ leads, pl.Valid)
    (l : Char) (hl : l ∈ leadLetters leads) :
    ∃ x ∈ leads, ∃ p, (x.lettersList = [l, p] ∨ x.lettersList = [p, l]) := by
  induction leads with
  | nil => cases hl
  | cons y rest ih =>
    have hyv := hv2 y (List.mem_cons_self y rest)
    obtain ⟨a, b, hab⟩ := length_two_pair y.lettersList hyv.1
    rcases List.mem_append.mp hl with hy | hrest
    · rw [hab] at hy
      rcases List.mem_cons.mp hy with rfl | hy2
      · exact ⟨y, List.mem_cons_self y rest, b, Or.inl hab⟩
      · rcases List.mem_cons.mp hy2 with rfl | hy3
        · exact ⟨y, List.mem_cons_self y rest, a, Or.inr hab⟩
        · cases hy3
    · obtain ⟨x, hx, p, hp⟩ := ih (fun pl hpl => hv2 pl (List.mem_cons_of_mem y hpl)) hrest
      exact ⟨x, List.mem_cons_of_mem y hx, p, hp⟩

theorem pair_letters_lower (leads : List PlugLead) (hv2 : ∀ pl ∈ leads, pl.Valid)
    (x : PlugLead) (hx : x ∈ leads) (l p : Char)
    (hxl : x.lettersList = [l, p] ∨ x.lettersList = [p, l]) :
    l ∈ lowerAlphabet ∧ p ∈ lowerAlphabet := by
  have hv := hv2 x hx
  rcases hxl with h | h
  · exact ⟨hv.2.2 l (by rw [h]; simp), hv.2.2 p (by rw [h]; simp)⟩
  · exact ⟨hv.2.2 l (by rw [h]; simp), hv.2.2 p (by rw [h]; simp)⟩

/-- C7: for every plugboard reachable through add and every alphabet
letter (either case), encoding twice returns the letter's uppercase
form; a letter wired into a lead encodes to the lead's other letter in
uppercase, and an unwired letter encodes to itself uppercased. -/
theorem c7_plugboard_involution (pb : Plugboard) (hv : pb.Valid) (c : Char)
    (hc : c ∈ lowerAlphabet ∨ c ∈ genericMapping) :
    pb.encode (pb.encode c) = c.toUpper ∧
    (∀ l p, pb.Pairs l p → c.toLower = l → pb.encode c = p.toUpper) ∧
    (c.toLower ∉ pb.plugLeadsLetters → pb.encode c = c.toUpper) := by
  obtain ⟨letters, leads, n⟩ := pb
  obtain ⟨hl1, hv2, hnd⟩ := hv
  dsimp only at hl1 hv2 hnd ⊢
  subst hl1
  have hpart2 : ∀ l p, (∃ x ∈ leads, x.lettersList = [l, p] ∨ x.lettersList = [p, l]) →
      c.toLower = l →
      Plugboard.encode ⟨leadLetters leads, leads, n⟩ c = p.toUpper := by
    rintro l p ⟨x, hx, hxl⟩ hcl
    have hlow := pair_letters_lower leads hv2 x hx l p hxl
    exact encode_wired leads n l p hv2 hnd x hx hxl c hcl (lower_toLower l hlow.1)
  refine ⟨?_, hpart2, ?_⟩
  · by_cases hmem : c.toLower ∈ leadLetters leads
    · obtain ⟨x, hx, p, hxl⟩ := exists_lead_pair leads hv2 (c.toLower) hmem
      have hlow := pair_letters_lower leads hv2 x hx _ p hxl
      have he1 : Plugboard.encode ⟨leadLetters leads, leads, n⟩ c = p.toUpper :=
        encode_wired leads n (c.toLower) p hv2 hnd x hx hxl c rfl
          (lower_toLower _ hlow.1)
      rw [he1]
      have hswap : x.lettersList = [p, c.toLower] ∨ x.lettersList = [c.toLower, p] := by
        rcases hxl with h | h
        · exact Or.inr h
        · exact Or.inl h
      have he2 : Plugboard.encode ⟨leadLetters leads, leads, n⟩ (p.toUpper)
          = (c.toLower).toUpper :=
        encode_wired leads n p (c.toLower) hv2 hnd x hx hswap (p.toUpper)
          (lower_toUpper_toLower p hlow.2) (lower_toLower p hlow.2)
      rw [he2, alpha_toLower_toUpper c hc]
    · have h3 : Plugboard.encode ⟨leadLetters leads, leads, n⟩ c
          = c.toLower.toUpper := encode_unwired _ c hmem
      rw [h3]
      have h4 := encode_unwired (⟨leadLetters leads, leads, n⟩ : Plugboard)
        (c.toLower.toUpper) (by
          dsimp only
          rw [lower_toUpper_toLower _ (alpha_toLower_mem c hc)]
          exact hmem)
      rw [h4, lower_toUpper_toLower _ (alpha_toLower_mem c hc),
        alpha_toLower_toUpper c hc]
  · intro hno
    rw [encode_unwired _ c hno, alpha_toLower_toUpper c hc]

/-- C7 witness: the involution theorem applied to a one-lead board
(lead a-e) at the letter A. -/
theorem c7_witness :
    (⟨['a', 'e'], [⟨['a', 'e']⟩], 10⟩ : Plugboard).encode
      ((⟨['a', 'e'], [⟨['a', 'e']⟩], 10⟩ : Plugboard).encode 'A') = 'A' ∧
    (⟨['a', 'e'], [⟨['a', 'e']⟩], 10⟩ : Plugboard).encode 'A' = 'E' := by
  have hv : (⟨['a', 'e'], [⟨['a', 'e']⟩], 10⟩ : Plugboard).Valid := by
    refine ⟨rfl, ?_, by decide⟩
    intro pl hpl
    rw [List.mem_singleton] at hpl
    subst hpl
    exact ⟨rfl, by decide, by decide⟩
  have h := c7_plugboard_involution ⟨['a', 'e'], [⟨['a', 'e']⟩], 10⟩ hv 'A'
    (Or.inr (by decide))
  exact ⟨h.1, h.2.1 'a' 'e' ⟨⟨['a', 'e']⟩, by decide, Or.inl rfl⟩ (by decide)⟩
